import Mathlib

/-!
Verification of the numba dispatch layer for elementwise and reduction
operations (`pytensor/link/numba/dispatch/elemwise.py`).

Arrays are modelled shallowly as a shape (list of dimension extents) together
with a total indexing function on multi-indices; the generated kernels are
modelled as functions on this array type following the generated source code
line by line.  Row-major `reshape` is modelled through flat-index arithmetic
(`flattenIdx` / `unflattenIdx`), matching `np.reshape` on a contiguous array.
-/

set_option maxHeartbeats 1000000

/-- Row-major flat index of a multi-index `idx` in shape `s`
(the layout used by `np.ascontiguousarray`/`np.reshape`). -/
def flattenIdx : List Nat → List Nat → Nat
  | d :: s, i :: t =>
    let _ := d
    i * s.prod + flattenIdx s t
  | _, _ => 0

/-- Inverse of `flattenIdx`: the multi-index in shape `s` of flat position `k`. -/
def unflattenIdx : List Nat → Nat → List Nat
  | [], _ => []
  | _ :: s, k => (k / s.prod) :: unflattenIdx s (k % s.prod)

/-- `idx` is a well-formed multi-index for shape `s`. -/
def validIdx : List Nat → List Nat → Prop
  | [], [] => True
  | d :: s, i :: t => i < d ∧ validIdx s t
  | _, _ => False

instance validIdx.dec : (s idx : List Nat) → Decidable (validIdx s idx)
  | [], [] => isTrue trivial
  | [], _ :: _ => isFalse (fun h => h)
  | _ :: _, [] => isFalse (fun h => h)
  | _ :: s, _ :: t =>
    match validIdx.dec s t with
    | isTrue h => if hd : _ then isTrue ⟨hd, h⟩ else isFalse (fun hc => hd hc.1)
    | isFalse h => isFalse (fun hc => h hc.2)

/-- Insert value `x` at position `k` of a list (the interleaving of the loop
index among the retained-axis coordinates in the generated reduction code). -/
def insertAt : Nat → Nat → List Nat → List Nat
  | 0, x, l => x :: l
  | _ + 1, x, [] => [x]
  | k + 1, x, y :: l => y :: insertAt k x l

/-- Remove the element at position `k` of a list (index map of `np.expand_dims`). -/
def removeAt : Nat → List Nat → List Nat
  | _, [] => []
  | 0, _ :: l => l
  | k + 1, y :: l => y :: removeAt k l

/-- All multi-indices of shape `s` in row-major (C) order, as `np.ndindex`. -/
def enumIdx : List Nat → List (List Nat)
  | [] => [[]]
  | d :: s => ((List.range d).map (fun i => (enumIdx s).map (i :: ·))).flatten

/-- Shallow model of a NumPy ndarray: a shape and a total indexing function. -/
structure NDArray (α : Type) where
  shape : List Nat
  get : List Nat → α

/-- The elements of an array in row-major order (used to compare arrays). -/
def NDArray.toList {α : Type} (a : NDArray α) : List α :=
  (enumIdx a.shape).map a.get

/-- Position of the first occurrence of `p` in a list of naturals
(how `np.transpose` recovers the source position of each axis). -/
def idxOfN (p : Nat) : List Nat → Nat
  | [] => 0
  | q :: l => if q = p then 0 else idxOfN p l + 1

/-- `np.transpose(x, perm)`: axis `i` of the result is axis `perm[i]` of `x`. -/
def NDArray.transpose {α : Type} (a : NDArray α) (perm : List Nat) : NDArray α :=
  ⟨perm.map (fun p => a.shape.getD p 0),
   fun idx => a.get ((List.range a.shape.length).map (fun p => idx.getD (idxOfN p perm) 0))⟩

/-- `np.reshape(np.ascontiguousarray(x), s)`: row-major relabelling of the data. -/
def NDArray.reshape {α : Type} (a : NDArray α) (s : List Nat) : NDArray α :=
  ⟨s, fun idx => a.get (unflattenIdx a.shape (flattenIdx s idx))⟩

/-- The tags of the scalar `Op`s registered on `scalar_in_place_fn`, plus a tag
standing for any scalar `Op` with no registered in-place update fragment. -/
inductive ScalarOpTag where
  | add | sub | mean | mul | mulWithoutZeros
  | and | or | xor | trueDiv | intDiv
  | scalarMaximum | scalarMinimum
  | unregistered
deriving DecidableEq

/-- `scalar_in_place_fn`: return the code fragment for an in-place update on an
array with a binary scalar `Op`; the base `singledispatch` case raises
`NotImplementedError`. -/
def scalar_in_place_fn (op : ScalarOpTag) (idx res arr : String) : Except String String :=
  match op with
  | .add => .ok (res ++ "[" ++ idx ++ "] += " ++ arr)
  | .sub => .ok (res ++ "[" ++ idx ++ "] -= " ++ arr)
  | .mean => .ok (res ++ "[" ++ idx ++ "] += (" ++ arr ++ " - " ++ res ++ "[" ++ idx ++ "]) / (i + 1)")
  | .mul => .ok (res ++ "[" ++ idx ++ "] *= " ++ arr)
  | .mulWithoutZeros => .ok (res ++ "[" ++ idx ++ "] = " ++ arr ++ " if " ++ res ++ "[" ++ idx
      ++ "] == 0 else (" ++ res ++ "[" ++ idx ++ "] if " ++ arr ++ " == 0 else "
      ++ res ++ "[" ++ idx ++ "] * " ++ arr ++ ")")
  | .and => .ok (res ++ "[" ++ idx ++ "] &= " ++ arr)
  | .or => .ok (res ++ "[" ++ idx ++ "] |= " ++ arr)
  | .xor => .ok (res ++ "[" ++ idx ++ "] ^= " ++ arr)
  | .trueDiv => .ok (res ++ "[" ++ idx ++ "] /= " ++ arr)
  | .intDiv => .ok (res ++ "[" ++ idx ++ "] //= " ++ arr)
  | .scalarMaximum => .ok ("\nif " ++ res ++ "[" ++ idx ++ "] < " ++ arr ++ ":\n    "
      ++ res ++ "[" ++ idx ++ "] = " ++ arr ++ "\n")
  | .scalarMinimum => .ok ("\nif " ++ res ++ "[" ++ idx ++ "] > " ++ arr ++ ":\n    "
      ++ res ++ "[" ++ idx ++ "] = " ++ arr ++ "\n")
  | .unregistered => .error "NotImplementedError"

/-- A tag has a registered in-place-update fragment. -/
def ScalarOpTag.registered : ScalarOpTag → Bool
  | .unregistered => false
  | _ => true

/-- `numpy.core.numeric.normalize_axis_index`: map a possibly-negative axis
into `[0, ndim)`, raising `AxisError` when out of range. -/
def normalize_axis_index (ax : Int) (ndim : Nat) : Except String Nat :=
  if ax < -(ndim : Int) ∨ (ndim : Int) ≤ ax then
    .error "AxisError: axis out of bounds"
  else if ax < 0 then .ok (ax + ndim).toNat
  else .ok ax.toNat

/-- `numpy.core.numeric.normalize_axis_tuple`: normalize every axis and reject
repeated (normalized) axes with `ValueError: repeated axis`. -/
def normalize_axis_tuple (axes : List Int) (ndim : Nat) : Except String (List Nat) := do
  let l ← axes.mapM (fun ax => normalize_axis_index ax ndim)
  if l.Nodup then pure l else throw "ValueError: repeated axis"

/-- The `res_indices` string built by `create_axis_reducer` for `ndim > 1`:
`idx_arr[0], idx_arr[1], ...` over the retained axes. -/
def resIndicesStr (ndim : Nat) : String :=
  String.intercalate ", " ((List.range (ndim - 1)).map (fun c => "idx_arr[" ++ toString c ++ "]"))

/-- One component of the `arr_indices` string of `create_axis_reducer`:
the reduced axis is indexed by the loop variable `i`, retained axes by the
running `idx_arr[count]`. -/
def arrIdxComp (axis i : Nat) : String :=
  if i = axis then "i" else "idx_arr[" ++ toString (if i < axis then i else i - 1) ++ "]"

/-- The joined `arr_indices` string of `create_axis_reducer` for `ndim > 1`. -/
def arrIndicesStr (axis ndim : Nat) : String :=
  String.intercalate ", " ((List.range ndim).map (arrIdxComp axis))

/-- Semantics of the loop nest generated by `create_axis_reducer`: reduce one
axis of `a` with the in-place update `step` (whose first argument is the inner
loop index `i`), starting each output cell at `identity`.  Follows the two
generated code templates (`ndim > 1` and the 1-d case) exactly. -/
def ndArrayReduceAxis {α : Type} (step : Nat → α → α → α) (identity : α)
    (axis ndim : Nat) (keepdims : Bool) (a : NDArray α) : NDArray α :=
  if 1 < ndim then
    let resShape := (List.range (ndim - 1)).map
      (fun i => if i < axis then a.shape.getD i 0 else a.shape.getD (i + 1) 0)
    let axisShape := a.shape.getD axis 0
    let res : NDArray α := ⟨resShape, fun idx =>
      (List.range axisShape).foldl (fun acc i => step i acc (a.get (insertAt axis i idx))) identity⟩
    if keepdims then ⟨insertAt axis 1 resShape, fun idx => res.get (removeAt axis idx)⟩
    else res
  else
    let axisShape := a.shape.getD axis 0
    let v := (List.range axisShape).foldl (fun acc i => step i acc (a.get [i])) identity
    if keepdims then ⟨[1], fun _ => v⟩ else ⟨[], fun _ => v⟩

/-- `create_axis_reducer`: normalize the axis, emit the in-place update
fragment for the scalar op (failing for an unregistered op), and return the
single-axis reduction kernel. -/
def createAxisReducer {α : Type} (tag : ScalarOpTag) (step : Nat → α → α → α)
    (identity : α) (axis : Int) (ndim : Nat) (keepdims : Bool) :
    Except String (NDArray α → NDArray α) := do
  let ax ← normalize_axis_index axis ndim
  let _frag ←
    if 1 < ndim then
      scalar_in_place_fn tag (resIndicesStr ndim) "res" ("x[" ++ arrIndicesStr ax ndim ++ "]")
    else
      scalar_in_place_fn tag "0" "res" "x[i]"
  pure (ndArrayReduceAxis step identity ax ndim keepdims)

/-- `reversed(sorted(axes))`: the descending processing order of
`create_multiaxis_reducer`. -/
def sortDescNat (l : List Nat) : List Nat :=
  (List.insertionSort (· ≤ ·) l).reverse

/-- The chain of single-axis reduction stages of `create_multiaxis_reducer`:
each stage is built for the current `ndim`, which then decreases by one
(`ndim -= 1`), and consumes the previous stage's output. -/
def runStages {α : Type} (tag : ScalarOpTag) (step : Nat → α → α → α) (identity : α) :
    List Nat → Nat → Except String (NDArray α → NDArray α)
  | [], _ => .ok id
  | ax :: rest, ndim => do
    let f ← createAxisReducer tag step identity (Int.ofNat ax) ndim false
    let g ← runStages tag step identity rest (ndim - 1)
    pure (g ∘ f)

/-- `create_multiaxis_reducer`: a single axis delegates to
`create_axis_reducer`; otherwise the axes are normalized (rejecting repeats),
sorted, and reduced in descending order one stage at a time. -/
def createMultiaxisReducer {α : Type} (tag : ScalarOpTag) (step : Nat → α → α → α)
    (identity : α) (axes : List Int) (ndim : Nat) :
    Except String (NDArray α → NDArray α) :=
  if axes.length = 1 then
    createAxisReducer tag step identity (axes.headD 0) ndim false
  else do
    let axs ← normalize_axis_tuple axes ndim
    runStages tag step identity (sortDescNat axs) ndim

/-- The axis defaulting of `numba_funcify_CAReduce`: `axis is None` reduces
over every axis of the input. -/
def careduceAxes (axisSpec : Option (List Int)) (ndim : Nat) : List Int :=
  match axisSpec with
  | none => (List.range ndim).map Int.ofNat
  | some axs => axs

/-- The kernel-construction step of `numba_funcify_CAReduce` (after identity
resolution, which is modelled by `careduceIdentity`): default the axes and
build the multi-axis reducer. -/
def careduceKernel {α : Type} (tag : ScalarOpTag) (step : Nat → α → α → α)
    (identity : α) (axisSpec : Option (List Int)) (ndim : Nat) :
    Except String (NDArray α → NDArray α) :=
  createMultiaxisReducer tag step identity (careduceAxes axisSpec ndim) ndim

/-- A reduction identity value as it appears in the Python source: a finite
number, or one of the floating infinities (`np.inf` / `-np.inf`). -/
inductive IdVal where
  | fin (q : ℚ)
  | pinf
  | ninf
deriving DecidableEq

/-- `np.isfinite` on an identity value. -/
def IdVal.isFinite : IdVal → Bool
  | .fin _ => true
  | _ => false

/-- The NumPy kind character of a dtype: signed integer, unsigned integer,
or floating. -/
inductive NpKind where
  | i | u | f
deriving DecidableEq

/-- The accumulator dtypes relevant to the reduction kernels. -/
inductive NpDType where
  | int8 | int16 | int32 | int64
  | uint8 | uint16 | uint32 | uint64
  | float32 | float64
deriving DecidableEq

/-- `np.dtype(d).kind`. -/
def NpDType.kind : NpDType → NpKind
  | .int8 | .int16 | .int32 | .int64 => .i
  | .uint8 | .uint16 | .uint32 | .uint64 => .u
  | .float32 | .float64 => .f

/-- `np.iinfo(d).max` (junk 0 for floating dtypes, where it is never used). -/
def NpDType.iinfoMax : NpDType → Int
  | .int8 => 127
  | .int16 => 32767
  | .int32 => 2147483647
  | .int64 => 9223372036854775807
  | .uint8 => 255
  | .uint16 => 65535
  | .uint32 => 4294967295
  | .uint64 => 18446744073709551615
  | _ => 0

/-- `np.iinfo(d).min` (junk 0 for floating dtypes, where it is never used). -/
def NpDType.iinfoMin : NpDType → Int
  | .int8 => -128
  | .int16 => -32768
  | .int32 => -2147483648
  | .int64 => -9223372036854775808
  | .uint8 | .uint16 | .uint32 | .uint64 => 0
  | _ => 0

/-- The saturation step of `numba_funcify_CAReduce`: only when
`np_acc_dtype.kind == "i"` and the identity is non-finite is the identity
replaced by the dtype's extreme representable value. -/
def resolveIdentity (d : NpDType) (v : IdVal) : IdVal :=
  if d.kind = .i ∧ v.isFinite = false then
    if v = .pinf then .fin ((d.iinfoMax : Int) : ℚ) else .fin ((d.iinfoMin : Int) : ℚ)
  else v

/-- `np.array(identity, dtype=np_acc_dtype)`: converting a non-finite value
into an integral dtype raises; finite identities are stored as given (the
identities in use are all representable). -/
def npArrayCast (d : NpDType) (v : IdVal) : Except String IdVal :=
  match v with
  | .fin q => .ok (.fin q)
  | _ =>
    if d.kind = .f then .ok v
    else .error "OverflowError: cannot convert float infinity to integer"

/-- The full identity resolution of `numba_funcify_CAReduce`: saturation for
signed-integer accumulators followed by the dtype cast. -/
def careduceIdentity (d : NpDType) (v : IdVal) : Except String IdVal :=
  npArrayCast d (resolveIdentity d v)

/-- The identity literal embedded by `create_axis_reducer` into the generated
source: textual `inf`/`-inf` become `np.inf`/`-np.inf`. -/
def identityLiteral : IdVal → String
  | .pinf => "np.inf"
  | .ninf => "-np.inf"
  | .fin q => toString q

/-- Modelled from the claim: saturation for every *integer* accumulator dtype
(signed or unsigned), used as given otherwise. -/
def claimResolveIdentity (d : NpDType) (v : IdVal) : IdVal :=
  if (d.kind = .i ∨ d.kind = .u) ∧ v.isFinite = false then
    if v = .pinf then .fin ((d.iinfoMax : Int) : ℚ) else .fin ((d.iinfoMin : Int) : ℚ)
  else v

/-- Denotation of the `Mul` fragment `res[idx] *= arr`. -/
def mulStep (_ : Nat) (res arr : ℚ) : ℚ := res * arr

/-- Denotation of the `Add` fragment `res[idx] += arr`. -/
def addStep (_ : Nat) (res arr : ℚ) : ℚ := res + arr

/-- Denotation of the `Mean` fragment
`res[idx] += (arr - res[idx]) / (i + 1)` at inner loop index `i`. -/
def meanStep (i : Nat) (res arr : ℚ) : ℚ := res + (arr - res) / (i + 1)

/-- Denotation of the `MulWithoutZeros` fragment
`res[idx] = arr if res[idx] == 0 else (res[idx] if arr == 0 else res[idx] * arr)`. -/
def mulWithoutZerosStep (_ : Nat) (res arr : ℚ) : ℚ :=
  if res = 0 then arr else if arr = 0 then res else res * arr

/-- Modelled from the claim: the value of the multiply-without-zeros update is
the non-zero operand when exactly one side is zero, the accumulator when both
are zero, and the product otherwise. -/
def claimMulWithoutZeros (res arr : ℚ) : ℚ :=
  if res = 0 ∧ arr = 0 then res
  else if res = 0 then arr
  else if arr = 0 then res
  else res * arr

/-- Denotation of the `ScalarMaximum` fragment
`if res[idx] < arr: res[idx] = arr` over values extended with `-inf`. -/
def maxStep (_ : Nat) (res arr : WithBot ℤ) : WithBot ℤ :=
  if res < arr then arr else res

/-- Broadcast two dimension extents (NumPy rule: equal, or one of them 1). -/
def broadcastDim (a b : Nat) : Option Nat :=
  if a = b then some a else if a = 1 then some b else if b = 1 then some a else none

/-- Broadcast two reversed shapes (aligned at the head). -/
def bcastRev : List Nat → List Nat → Option (List Nat)
  | [], t => some t
  | s, [] => some s
  | a :: s, b :: t => do
    let d ← broadcastDim a b
    let r ← bcastRev s t
    pure (d :: r)

/-- NumPy-style broadcast of two shapes: trailing dimensions align. -/
def broadcastShape2 (s t : List Nat) : Option (List Nat) :=
  (bcastRev s.reverse t.reverse).map List.reverse

/-- Broadcast of a collection of input shapes. -/
def broadcastShapes : List (List Nat) → Option (List Nat)
  | [] => some []
  | s :: rest => do
    let r ← broadcastShapes rest
    broadcastShape2 s r

/-- Map a multi-index of the broadcast shape back into an input of shape
`shape` (right-aligned; stretched size-1 dimensions index at 0). -/
def bIdx (shape idx : List Nat) : List Nat :=
  (shape.zip (idx.drop (idx.length - shape.length))).map
    (fun pr => if pr.1 = 1 then 0 else pr.2)

/-- Semantics of the `numba.vectorize`d elementwise kernel produced by
`create_vectorize_func`: apply the scalar kernel at every coordinate of the
broadcast shape (`none` on a broadcast shape mismatch). -/
def vectorize {α : Type} (f : List α → α) (inputs : List (NDArray α)) : Option (NDArray α) :=
  (broadcastShapes (inputs.map (fun a => a.shape))).map
    (fun bs => ⟨bs, fun idx => f (inputs.map (fun a => a.get (bIdx a.shape idx)))⟩)

/-- Calling the vectorized kernel with an explicit output argument: the result
values are those of the out-of-place computation (which are also written into
the storage of `out`). -/
def vectorizeWithOut {α : Type} (f : List α → α) (inputs : List (NDArray α))
    (out : NDArray α) : Option (NDArray α) :=
  let _ := out
  vectorize f inputs

/-- `create_vectorize_func`: nodes with more than one output are rejected
before any kernel is produced. -/
def createVectorizeFunc {α : Type} (nOutputs : Nat) (f : List α → α) :
    Except String (List (NDArray α) → Option (NDArray α)) :=
  if nOutputs > 1 then
    .error "Multi-output Elemwise Ops are not supported by the Numba backend"
  else
    .ok (fun inputs => vectorize f inputs)

/-- The in-place wrapper generated by `numba_funcify_Elemwise` for a rank-0
update target: the target scalar is wrapped as an array (`np.asarray`), the
elementwise kernel is run with it as the output argument, and the single
element is extracted back (`.item()`). -/
def inplaceElemwise0 {α : Type} [Inhabited α] (f : List α → α)
    (inputs : List (NDArray α)) (t : Nat) : Option α :=
  let tgt := inputs.getD t ⟨[], fun _ => default⟩
  let tgtArr : NDArray α := ⟨[], fun _ => tgt.get []⟩
  (vectorizeWithOut f inputs tgtArr).map (fun r => r.get [])

/-- `np.argmax` on a 1-d slice: the index of the first occurrence of the
maximum (scanning left to right, replacing only on strict increase). -/
def npArgmaxAux {α : Type} [LT α] [DecidableRel ((· < ·) : α → α → Prop)]
    (best : α) (bestIdx cur : Nat) : List α → Nat
  | [] => bestIdx
  | x :: t =>
    if best < x then npArgmaxAux x cur (cur + 1) t
    else npArgmaxAux best bestIdx (cur + 1) t

/-- `np.argmax` of a 1-d array (0 on an empty list, which never occurs). -/
def npArgmax {α : Type} [LT α] [DecidableRel ((· < ·) : α → α → Prop)] : List α → Nat
  | [] => 0
  | x :: t => npArgmaxAux x 0 1 t

/-- `create_axis_apply_fn`: move `axis` to the back, then apply `fn` to every
1-d slice along it, producing an array of the remaining shape. -/
def createAxisApplyFn {α β : Type} (fn : List α → β) (axis ndim : Nat)
    (x : NDArray α) : NDArray β :=
  let reaxisFirst := (List.range ndim).filter (fun i => decide (i ≠ axis)) ++ [axis]
  let xr := x.transpose reaxisFirst
  ⟨xr.shape.dropLast, fun m =>
    fn ((List.range (xr.shape.getD (xr.shape.length - 1) 0)).map (fun j => xr.get (m ++ [j])))⟩

/-- `np.argmax` returning an `int64`. -/
def npArgmaxZ (l : List (WithBot ℤ)) : ℤ := (npArgmax l : ℤ)

/-- `numba_funcify_MaxAndArgmax`: rank-0 inputs short-circuit to `(x, 0)`;
otherwise the max is a multi-axis `scalar_maximum` reduction with identity
`-inf`, and the argmax transposes the kept axes to the front, flattens the
reduced trailing axes into one dimension, and applies a per-row `np.argmax`. -/
def maxandargmaxBuild (axes : List Nat) (ndim : Nat) :
    Except String (NDArray (WithBot ℤ) → NDArray (WithBot ℤ) × NDArray ℤ) :=
  if ndim = 0 then
    .ok (fun x => (x, ⟨[], fun _ => 0⟩))
  else do
    let keepAxes := (List.range ndim).filter (fun i => decide (i ∉ axes))
    let reduceMax ← createMultiaxisReducer .scalarMaximum maxStep (⊥ : WithBot ℤ)
      (axes.map Int.ofNat) ndim
    let reducedXNdim := ndim - axes.length + 1
    let reaxisOrder := keepAxes ++ axes
    pure (fun x =>
      let maxRes := reduceMax x
      let transposedX := x.transpose reaxisOrder
      let keptShape := transposedX.shape.take keepAxes.length
      let reducedShape := transposedX.shape.drop keepAxes.length
      let reducedSize := reducedShape.prod
      let reshapedX := transposedX.reshape (keptShape ++ [reducedSize])
      let maxIdxRes := createAxisApplyFn npArgmaxZ (reducedXNdim - 1) reducedXNdim reshapedX
      (maxRes, maxIdxRes))

/-- The concrete test array `[[3, 1, 2], [0, 5, 4]]`. -/
def exArr : NDArray (WithBot ℤ) :=
  ⟨[2, 3], fun idx =>
    (([[3, 1, 2], [0, 5, 4]] : List (List (WithBot ℤ))).getD (idx.getD 0 0) []).getD (idx.getD 1 0) ⊥⟩

/-- The shape-resolution loop of the generated dimshuffle kernel
(`find_shape`): walk the output positions, splicing a literal 1 at every
recorded insertion point and consuming the transposed shape elsewhere. -/
def findShape (augment : List Nat) : List Nat → Nat → Nat → List Nat
  | _, _, 0 => []
  | shuffleShape, i, n + 1 =>
    if i ∈ augment then 1 :: findShape augment shuffleShape (i + 1) n
    else shuffleShape.headD 1 :: findShape augment shuffleShape.tail (i + 1) n

/-- The `no_transpose` fast path of `numba_funcify_DimShuffle`: an identity
`transposition` skips the transpose. -/
def transposeOpt {α : Type} (perm : List Nat) (a : NDArray α) : NDArray α :=
  if perm = List.range perm.length then a else a.transpose perm

/-- `numba_funcify_DimShuffle`: transpose by `transposition`, then reshape
(row-major, after `np.ascontiguousarray`) to the shape obtained by splicing
size-1 axes at the `augment` positions into the first `shuffleLen` transposed
dimensions; a rank-0 output returns the contained scalar (`x.item()`). -/
def dimshuffle {α : Type} (shuffleLen : Nat) (transposition augment : List Nat)
    (a : NDArray α) : NDArray α :=
  let ndimNewShape := shuffleLen + augment.length
  let t := transposeOpt transposition a
  if 0 < ndimNewShape then
    let shuffleShape := t.shape.take shuffleLen
    t.reshape (findShape augment shuffleShape 0 ndimNewShape)
  else
    ⟨[], fun _ => a.get (List.replicate a.shape.length 0)⟩

/-- The positions of the inserted (`'x'`) axes in a dimshuffle `new_order`. -/
def findNones : List (Option Nat) → Nat → List Nat
  | [], _ => []
  | none :: t, i => i :: findNones t (i + 1)
  | some _ :: t, i => findNones t (i + 1)

/-- The kept source axes of a dimshuffle `new_order`, in output order
(`op.shuffle`). -/
def srcShuffle (src : List (Option Nat)) : List Nat :=
  src.filterMap id

/-- `op.augment`: the output positions of the inserted broadcastable axes. -/
def srcAugment (src : List (Option Nat)) : List Nat :=
  findNones src 0

/-- `op.drop` (ascending): the source axes not referenced by `new_order`. -/
def srcDrop (n : Nat) (src : List (Option Nat)) : List Nat :=
  (List.range n).filter (fun p => decide (p ∉ srcShuffle src))

/-- The dimshuffle kernel assembled from a `new_order` description `src`
(`some p` takes source axis `p`, `none` inserts a size-1 axis), with
`transposition = shuffle + drop` as built by the `DimShuffle` op. -/
def dimshuffleSrc {α : Type} (n : Nat) (src : List (Option Nat)) (a : NDArray α) : NDArray α :=
  dimshuffle (srcShuffle src).length (srcShuffle src ++ srcDrop n src) (srcAugment src) a

/-- The output position holding source axis `p` (first `i` with
`src[i] = some p`). -/
def posOf : List (Option Nat) → Nat → Option Nat
  | [], _ => none
  | some q :: s, p => if q = p then some 0 else (posOf s p).map (· + 1)
  | none :: s, p => (posOf s p).map (· + 1)

/-- The output shape a dimshuffle of `src` should produce from input shape
`sh`: kept axes keep their extent, inserted axes have extent 1. -/
def srcShape (src : List (Option Nat)) (sh : List Nat) : List Nat :=
  src.map (fun o => match o with | some p => sh.getD p 0 | none => 1)

/-- The source multi-index read by a dimshuffle of `src` at output index
`idx`: kept axes take the matching output coordinate, dropped axes read 0. -/
def srcPull (n : Nat) (src : List (Option Nat)) (idx : List Nat) : List Nat :=
  (List.range n).map (fun p => match posOf src p with
    | some i => idx.getD i 0
    | none => 0)

/-- The components of an output index at the kept (non-inserted) positions. -/
def extractIdx : List (Option Nat) → List Nat → List Nat
  | some _ :: s, x :: t => x :: extractIdx s t
  | none :: s, _ :: t => extractIdx s t
  | _, _ => []

/-- Modelled from the claim: a multi-axis reducer that *deduplicates* the
normalized axes instead of rejecting repeats. -/
def claimDedupMultiaxisReducer {α : Type} (tag : ScalarOpTag) (step : Nat → α → α → α)
    (identity : α) (axes : List Int) (ndim : Nat) :
    Except String (NDArray α → NDArray α) := do
  let l ← axes.mapM (fun ax => normalize_axis_index ax ndim)
  runStages tag step identity (sortDescNat l.dedup) ndim

/-- The claim's staging description: reduce the listed axes one per stage in
the given order, each stage a single-axis reduction with `keepdims = false`
consuming the previous stage's output, the declared rank decreasing by one. -/
def specStages {α : Type} (step : Nat → α → α → α) (identity : α) :
    List Nat → Nat → NDArray α → NDArray α
  | [], _, a => a
  | ax :: rest, ndim, a =>
    specStages step identity rest (ndim - 1) (ndArrayReduceAxis step identity ax ndim false a)

/-- The running-mean fold of the generated 1-d `Mean` reduction loop:
`res += (x[i] - res) / (i + 1)` with `i` counting from `k`. -/
def meanFoldAux (k : Nat) (acc : ℚ) : List ℚ → ℚ
  | [] => acc
  | x :: t => meanFoldAux (k + 1) (meanStep k acc x) t

/-- A 1-d array holding the elements of `xs`. -/
def ofList1d (xs : List ℚ) : NDArray ℚ :=
  ⟨[xs.length], fun idx => xs.getD (idx.headD 0) 0⟩

/-- A concrete rank-3 array used to instantiate the reducer theorems. -/
def exQ3 : NDArray ℚ :=
  ⟨[2, 2, 3], fun idx => (flattenIdx [2, 2, 3] idx : ℚ)⟩

/-- A concrete rank-2 array used to instantiate the reducer theorems. -/
def exQ2 : NDArray ℚ :=
  ⟨[2, 3], fun idx => (flattenIdx [2, 3] idx : ℚ)⟩

/-- A concrete array of shape `(2, 1, 3)` used for the dimshuffle round trip. -/
def exArr7 : NDArray ℚ :=
  ⟨[2, 1, 3], fun idx => (flattenIdx [2, 1, 3] idx : ℚ)⟩

/-- `new_order` of the forward dimshuffle of the round trip: drop axis 1 and
transpose `(2, 1, 3) → (3, 2)`. -/
def exSrcFwd : List (Option Nat) := [some 2, some 0]

/-- `new_order` of the inverse dimshuffle: reinsert axis 1 and transpose back. -/
def exSrcBwd : List (Option Nat) := [some 1, none, some 0]

/-- A concrete scalar kernel (sum of the scalar inputs). -/
def sumQ (l : List ℚ) : ℚ := l.sum

/-- Two concrete rank-0 inputs for the in-place elementwise wrapper. -/
def exInputs0 : List (NDArray ℚ) :=
  [⟨[], fun _ => 5⟩, ⟨[], fun _ => 7⟩]

/-- C2: the fragment emitted for `MulWithoutZeros` computes: the non-zero
operand when exactly one of accumulator and operand is zero, the accumulator
when both are zero (both readings agree: the value 0), and otherwise the
product — for every pair of values.  The emitted fragment is checked
textually alongside its denotation. -/
theorem mulWithoutZeros_spec :
    (∀ res arr : ℚ, mulWithoutZerosStep 0 res arr = claimMulWithoutZeros res arr)
    ∧ scalar_in_place_fn .mulWithoutZeros "0" "res" "arr" =
      .ok "res[0] = arr if res[0] == 0 else (res[0] if arr == 0 else res[0] * arr)" := by
  constructor
  · intro res arr
    unfold mulWithoutZerosStep claimMulWithoutZeros
    by_cases hr : res = 0 <;> by_cases ha : arr = 0 <;> simp [hr, ha]
  · rfl

/-- C8: invoking the scalar-op code emitter with an unregistered operator tag
fails (with the `NotImplementedError` the spec calls `UnsupportedOperator`)
and produces no fragment; the failure already aborts `create_axis_reducer`
at kernel-build time, whereas every registered tag yields a fragment and a
total (never-failing) kernel. -/
theorem scalar_in_place_fn_unregistered {α : Type}
    (step : Nat → α → α → α) (identity : α) (idx res arr : String) :
    scalar_in_place_fn .unregistered idx res arr = .error "NotImplementedError"
    ∧ createAxisReducer .unregistered step identity 0 2 false =
        .error "NotImplementedError"
    ∧ (∀ tag : ScalarOpTag, tag.registered = true →
        ∃ frag, scalar_in_place_fn tag idx res arr = .ok frag) := by
  refine ⟨rfl, rfl, ?_⟩
  intro tag hreg
  cases tag <;> simp_all [scalar_in_place_fn, ScalarOpTag.registered]

/-- Witness for C8 at the concrete registered tag `Add`. -/
theorem scalar_in_place_fn_unregistered_witness :
    ∃ frag, scalar_in_place_fn .add "0" "res" "arr" = .ok frag :=
  (scalar_in_place_fn_unregistered (fun _ a b => a + b) (0 : ℚ) "0" "res" "arr").2.2
    .add rfl

/-- C9: `create_vectorize_func` rejects nodes with more than one output with
the error the spec calls `UnsupportedArity`, and (for well-formed nodes,
which have at least one output) returns a kernel exactly when the node has a
single output. -/
theorem createVectorizeFunc_arity {α : Type} (n : Nat) (f : List α → α)
    (h : 1 ≤ n) :
    ((createVectorizeFunc n f).isOk ↔ n = 1)
    ∧ (1 < n → createVectorizeFunc n f =
        .error "Multi-output Elemwise Ops are not supported by the Numba backend") := by
  constructor
  · unfold createVectorizeFunc
    split
    · next hgt => simp [Except.isOk, Except.toBool]; omega
    · next hle => simp [Except.isOk, Except.toBool]; omega
  · intro hgt
    unfold createVectorizeFunc
    split
    · rfl
    · omega

/-- Witness for C9 at a concrete two-output node. -/
theorem createVectorizeFunc_arity_witness :
    createVectorizeFunc 2 (fun l : List ℚ => l.sum) =
      .error "Multi-output Elemwise Ops are not supported by the Numba backend" :=
  (createVectorizeFunc_arity 2 (fun l : List ℚ => l.sum) (by norm_num)).2 (by norm_num)

/-- C3 counterexample: `uint8` is an integer dtype, yet the code does not
saturate a `-inf` identity for it (the saturation guard tests
`np_acc_dtype.kind == "i"`, signed integers only): embedding the identity
fails at the dtype cast instead of producing the claimed minimum value 0. -/
theorem careduceIdentity_unsigned_counterexample :
    NpDType.kind .uint8 ≠ .f
    ∧ careduceIdentity .uint8 .ninf =
        .error "OverflowError: cannot convert float infinity to integer"
    ∧ claimResolveIdentity .uint8 .ninf = .fin ((NpDType.iinfoMin .uint8 : Int) : ℚ)
    ∧ careduceIdentity .uint8 .ninf ≠ .ok (claimResolveIdentity .uint8 .ninf) := by
  refine ⟨by decide, rfl, by decide, ?_⟩
  intro h
  simp [careduceIdentity, resolveIdentity, npArrayCast, NpDType.kind, IdVal.isFinite] at h

/-- C3 (amended): the identity saturates to the integer extremes only for
*signed* integer accumulator dtypes (`kind == "i"`); for floating dtypes it is
used as given, with the textual infinities becoming `np.inf` / `-np.inf` in
the generated source. -/
theorem careduceIdentity_signed_saturation (d : NpDType) (v : IdVal) :
    (d.kind = .i → v.isFinite = false →
      careduceIdentity d v =
        .ok (.fin (if v = .pinf then ((d.iinfoMax : Int) : ℚ)
                   else ((d.iinfoMin : Int) : ℚ))))
    ∧ (d.kind = .f → careduceIdentity d v = .ok v)
    ∧ identityLiteral .pinf = "np.inf" ∧ identityLiteral .ninf = "-np.inf" := by
  refine ⟨?_, ?_, rfl, rfl⟩
  · intro hi hf
    cases v with
    | fin q => simp [IdVal.isFinite] at hf
    | pinf => simp [careduceIdentity, resolveIdentity, npArrayCast, IdVal.isFinite, hi]
    | ninf => simp [careduceIdentity, resolveIdentity, npArrayCast, IdVal.isFinite, hi]
  · intro hf
    cases v <;> simp [careduceIdentity, resolveIdentity, npArrayCast, IdVal.isFinite, hf]

/-- Witness for C3 at `int8` with `-inf`: the embedded identity is the
saturated minimum `-128`. -/
theorem careduceIdentity_signed_saturation_witness :
    careduceIdentity .int8 .ninf = .ok (.fin (-128)) := by
  have h := (careduceIdentity_signed_saturation .int8 .ninf).1 rfl rfl
  simpa [NpDType.iinfoMin] using h

/-- The generated 1-d reduction loop over `List.range`, written as a
structural fold over the list of elements. -/
theorem meanFold_range (xs : List ℚ) : ∀ (k : Nat) (acc : ℚ),
    (List.range xs.length).foldl (fun a i => meanStep (k + i) a (xs.getD i 0)) acc =
      meanFoldAux k acc xs := by
  induction xs with
  | nil => intro k acc; rfl
  | cons x t ih =>
    intro k acc
    simp only [List.length_cons, List.range_succ_eq_map, List.foldl_cons, List.foldl_map,
      List.getD_cons_succ, List.getD_cons_zero, Nat.add_zero]
    have hrw : ∀ (a : ℚ) (i : Nat),
        meanStep (k + Nat.succ i) a (t.getD i 0) = meanStep (k + 1 + i) a (t.getD i 0) := by
      intro a i; congr 1; omega
    simp only [hrw]
    exact ih (k + 1) (meanStep k acc x)

/-- Closed form of the running-mean fold: starting the counter at `k` with
accumulator `acc` ends at the mean of `k` copies of `acc` and the elements. -/
theorem meanFoldAux_eq (xs : List ℚ) : ∀ (k : Nat) (acc : ℚ), 1 ≤ k + xs.length →
    meanFoldAux k acc xs = ((k : ℚ) * acc + xs.sum) / (k + xs.length) := by
  induction xs with
  | nil =>
    intro k acc hk
    simp only [List.length_nil, Nat.add_zero] at hk
    have hk0 : (k : ℚ) ≠ 0 := by
      have hpos : 0 < k := by omega
      exact_mod_cast hpos.ne'
    simp only [meanFoldAux, List.sum_nil, List.length_nil, Nat.cast_zero, add_zero]
    field_simp
  | cons x t ih =>
    intro k acc hk
    show meanFoldAux (k + 1) (meanStep k acc x) t = _
    rw [ih (k + 1) _ (by omega)]
    have hk1 : ((k : ℚ) + 1) ≠ 0 := by positivity
    have hd1 : ((k : ℚ) + 1 + (t.length : ℚ)) ≠ 0 := by positivity
    have hd2 : ((k : ℚ) + ((t.length : ℚ) + 1)) ≠ 0 := by positivity
    unfold meanStep
    simp only [List.sum_cons, List.length_cons]
    push_cast
    rw [div_eq_div_iff hd1 hd2]
    field_simp
    ring

/-- C4: the `Mean` fragment is
`res[0] += (x[i] - res[0]) / (i + 1)` with `i` the 0-based loop index, and
the generated 1-d mean reduction of any non-empty list of values, from any
initial accumulator, is their arithmetic mean. -/
theorem meanReducer_is_mean (init : ℚ) (xs : List ℚ) (h : xs ≠ []) :
    (ndArrayReduceAxis meanStep init 0 1 false (ofList1d xs)).get []
      = xs.sum / xs.length
    ∧ scalar_in_place_fn .mean "0" "res" "x[i]" =
        .ok "res[0] += (x[i] - res[0]) / (i + 1)" := by
  refine ⟨?_, rfl⟩
  have hfold := meanFold_range xs 0 init
  simp only [Nat.zero_add] at hfold
  have hlen : 1 ≤ 0 + xs.length := by
    have := List.length_pos.mpr h
    omega
  have heq := meanFoldAux_eq xs 0 init hlen
  have hgoal : (ndArrayReduceAxis meanStep init 0 1 false (ofList1d xs)).get []
      = List.foldl (fun a i => meanStep i a (xs.getD i 0)) init (List.range xs.length) := rfl
  rw [hgoal, hfold, heq]
  norm_num

/-- Witness for C4: folding `[1, 2, 6]` from initial accumulator 7 gives 3. -/
theorem meanReducer_is_mean_witness :
    (ndArrayReduceAxis meanStep (7 : ℚ) 0 1 false (ofList1d [1, 2, 6])).get [] = 3 := by
  have h := (meanReducer_is_mean 7 [1, 2, 6] (by simp)).1
  rw [h]
  norm_num

/-- Broadcasting any number of rank-0 inputs yields the rank-0 shape. -/
theorem broadcastShapes_all_scalar {α : Type} (inputs : List (NDArray α))
    (hall : ∀ a ∈ inputs, a.shape = []) :
    broadcastShapes (inputs.map (fun a => a.shape)) = some [] := by
  induction inputs with
  | nil => rfl
  | cons a t ih =>
    have ha : a.shape = [] := hall a (by simp)
    have ht := ih (fun b hb => hall b (by simp [hb]))
    simp only [List.map_cons, broadcastShapes, ht, ha]
    rfl

/-- C5: for a rank-0 in-place target (hence all-rank-0 inputs of the
elementwise node), the generated wrapper — `np.asarray` the scalar target,
run the out-of-place kernel into it, `.item()` the result — returns a rank-0
value numerically equal to the out-of-place kernel's result. -/
theorem inplaceElemwise0_scalar {α : Type} [Inhabited α] (f : List α → α)
    (inputs : List (NDArray α)) (t : Nat) (hall : ∀ a ∈ inputs, a.shape = []) :
    ∃ r, vectorize f inputs = some r ∧ r.shape = []
      ∧ inplaceElemwise0 f inputs t = some (r.get [])
      ∧ r.get [] = f (inputs.map (fun a => a.get [])) := by
  have hb := broadcastShapes_all_scalar inputs hall
  refine ⟨⟨[], fun idx => f (inputs.map (fun a => a.get (bIdx a.shape idx)))⟩, ?_, rfl, ?_, ?_⟩
  · unfold vectorize
    rw [hb]
    rfl
  · unfold inplaceElemwise0 vectorizeWithOut vectorize
    rw [hb]
    rfl
  · show f (inputs.map (fun a => a.get (bIdx a.shape []))) = f (inputs.map (fun a => a.get []))
    congr 1
    apply List.map_congr_left
    intro a ha
    rw [hall a ha]
    rfl

/-- Witness for C5: summing the two rank-0 inputs 5 and 7 in place gives 12. -/
theorem inplaceElemwise0_scalar_witness :
    inplaceElemwise0 sumQ exInputs0 0 = some 12 := by
  obtain ⟨r, h1, h2, h3, h4⟩ := inplaceElemwise0_scalar sumQ exInputs0 0 (by
    intro a ha
    simp only [exInputs0, List.mem_cons, List.not_mem_nil, or_false] at ha
    rcases ha with h | h <;> subst h <;> rfl)
  rw [h3, h4]
  norm_num [sumQ, exInputs0]

/-- Binding a successful `Except` computation. -/
theorem except_bind_ok {ε α β : Type} (a : α) (f : α → Except ε β) :
    (Except.ok (ε := ε) a >>= f) = f a := rfl

/-- Binding a failed `Except` computation propagates the error. -/
theorem except_bind_error {ε α β : Type} (e : ε) (f : α → Except ε β) :
    (Except.error (α := α) e >>= f) = Except.error e := rfl

/-- Every registered tag yields a code fragment. -/
theorem scalar_in_place_fn_ok (tag : ScalarOpTag) (hreg : tag.registered = true)
    (idx res arr : String) : ∃ frag, scalar_in_place_fn tag idx res arr = .ok frag := by
  cases tag <;> simp_all [scalar_in_place_fn, ScalarOpTag.registered]

/-- The output rank of a single-axis reduction stage with `keepdims = false`
is one less than the declared input rank. -/
theorem ndArrayReduceAxis_rank {α : Type} (step : Nat → α → α → α) (identity : α)
    (axis ndim : Nat) (a : NDArray α) :
    (ndArrayReduceAxis step identity axis ndim false a).shape.length = ndim - 1 := by
  unfold ndArrayReduceAxis
  by_cases h : 1 < ndim <;> simp [h] <;> omega

/-- A successfully normalized axis lies in `[0, ndim)`. -/
theorem normalize_axis_index_lt {ax : Int} {ndim x : Nat}
    (h : normalize_axis_index ax ndim = .ok x) : x < ndim := by
  unfold normalize_axis_index at h
  split at h
  · exact absurd h (by simp)
  · next hcond =>
    push_neg at hcond
    split at h
    all_goals
      simp only [Except.ok.injEq] at h
      omega

/-- Normalizing an in-range non-negative axis is the identity. -/
theorem normalize_axis_index_ofNat {x ndim : Nat} (h : x < ndim) :
    normalize_axis_index (Int.ofNat x) ndim = .ok x := by
  unfold normalize_axis_index
  simp only [Int.ofNat_eq_coe]
  have h1 : ¬((x : Int) < -(ndim : Int) ∨ (ndim : Int) ≤ (x : Int)) := by omega
  have h2 : ¬((x : Int) < 0) := by omega
  rw [if_neg h1, if_neg h2]
  simp

/-- Normalizing a list of axes bounds every result and preserves the length. -/
theorem mapM_normalize_bounds {ndim : Nat} :
    ∀ {axes : List Int} {l : List Nat},
      axes.mapM (fun ax => normalize_axis_index ax ndim) = .ok l →
      (∀ x ∈ l, x < ndim) ∧ l.length = axes.length := by
  intro axes
  induction axes with
  | nil =>
    intro l h
    simp only [List.mapM_nil, pure] at h
    cases h
    simp
  | cons a t ih =>
    intro l h
    rw [List.mapM_cons] at h
    cases hx : normalize_axis_index a ndim with
    | error e => rw [hx, except_bind_error] at h; cases h
    | ok x =>
      rw [hx, except_bind_ok] at h
      cases ht : t.mapM (fun ax => normalize_axis_index ax ndim) with
      | error e => rw [ht, except_bind_error] at h; cases h
      | ok xs =>
        rw [ht, except_bind_ok] at h
        cases h
        obtain ⟨hb, hl⟩ := ih ht
        refine ⟨?_, by simp [hl]⟩
        intro y hy
        rcases List.mem_cons.mp hy with hy | hy
        · subst hy; exact normalize_axis_index_lt hx
        · exact hb y hy

/-- A successful `normalize_axis_tuple` yields in-range, duplicate-free axes
of the same count. -/
theorem normalize_axis_tuple_ok {axes : List Int} {ndim : Nat} {axs : List Nat}
    (h : normalize_axis_tuple axes ndim = .ok axs) :
    (∀ x ∈ axs, x < ndim) ∧ axs.Nodup ∧ axs.length = axes.length := by
  unfold normalize_axis_tuple at h
  cases hm : axes.mapM (fun ax => normalize_axis_index ax ndim) with
  | error e => rw [hm, except_bind_error] at h; cases h
  | ok l =>
    rw [hm, except_bind_ok] at h
    split at h
    · next hnd =>
      simp only [pure, Except.pure, Except.ok.injEq] at h
      subst h
      obtain ⟨hb, hl⟩ := mapM_normalize_bounds hm
      exact ⟨hb, hnd, hl⟩
    · exact absurd h (by simp [throw, throwThe, MonadExceptOf.throw])

/-- `reversed(sorted(axes))` is a permutation of the axes. -/
theorem sortDescNat_perm (l : List Nat) : (sortDescNat l).Perm l := by
  unfold sortDescNat
  exact (List.reverse_perm _).trans (List.perm_insertionSort _ l)

/-- `reversed(sorted(axes))` is sorted in descending order. -/
theorem sortDescNat_sorted (l : List Nat) : (sortDescNat l).Sorted (· ≥ ·) := by
  unfold sortDescNat
  rw [List.Sorted, List.pairwise_reverse]
  exact List.sorted_insertionSort (· ≤ ·) l

/-- For duplicate-free axes the descending order is strict. -/
theorem sortDescNat_pairwise_gt {l : List Nat} (h : l.Nodup) :
    (sortDescNat l).Pairwise (· > ·) := by
  have hs : (sortDescNat l).Pairwise (· ≥ ·) := sortDescNat_sorted l
  have hn : (sortDescNat l).Nodup := (sortDescNat_perm l).nodup_iff.mpr h
  exact (hs.and hn).imp (fun {a b} hab => lt_of_le_of_ne hab.1 (Ne.symm hab.2))

/-- For a registered tag and an in-range non-negative axis,
`create_axis_reducer` succeeds with the single-axis reduction kernel. -/
theorem createAxisReducer_ok {α : Type} (tag : ScalarOpTag) (step : Nat → α → α → α)
    (identity : α) {ax ndim : Nat} (hreg : tag.registered = true) (hax : ax < ndim) :
    createAxisReducer tag step identity (Int.ofNat ax) ndim false
      = .ok (ndArrayReduceAxis step identity ax ndim false) := by
  unfold createAxisReducer
  rw [normalize_axis_index_ofNat hax, except_bind_ok]
  split
  · obtain ⟨fr, hfr⟩ := scalar_in_place_fn_ok tag hreg (resIndicesStr ndim) "res"
      ("x[" ++ arrIndicesStr ax ndim ++ "]")
    rw [hfr, except_bind_ok]
    rfl
  · obtain ⟨fr, hfr⟩ := scalar_in_place_fn_ok tag hreg "0" "res" "x[i]"
    rw [hfr, except_bind_ok]
    rfl

/-- The stage chain of `create_multiaxis_reducer` succeeds on a strictly
descending in-range axis list, and computes exactly the claim's staging:
one single-axis `keepdims = false` reduction per axis, each consuming the
previous stage's output with the declared rank decreasing by one. -/
theorem runStages_ok {α : Type} (tag : ScalarOpTag) (step : Nat → α → α → α)
    (identity : α) (hreg : tag.registered = true) :
    ∀ (l : List Nat) (ndim : Nat), l.Pairwise (· > ·) → (∀ x ∈ l, x < ndim) →
    ∃ g, runStages tag step identity l ndim = .ok g
      ∧ ∀ a, g a = specStages step identity l ndim a := by
  intro l
  induction l with
  | nil => exact fun ndim _ _ => ⟨id, rfl, fun a => rfl⟩
  | cons ax rest ih =>
    intro ndim hpw hlt
    have hax : ax < ndim := hlt ax (by simp)
    obtain ⟨hgt, hpw'⟩ := List.pairwise_cons.mp hpw
    have hlt' : ∀ x ∈ rest, x < ndim - 1 := by
      intro x hx
      have := hgt x hx
      omega
    obtain ⟨g, hg, hgspec⟩ := ih (ndim - 1) hpw' hlt'
    refine ⟨g ∘ ndArrayReduceAxis step identity ax ndim false, ?_, ?_⟩
    · show (do
        let f ← createAxisReducer tag step identity (Int.ofNat ax) ndim false
        let g ← runStages tag step identity rest (ndim - 1)
        pure (g ∘ f)) = _
      rw [createAxisReducer_ok tag step identity hreg hax, except_bind_ok, hg,
        except_bind_ok]
      rfl
    · intro a
      show g (ndArrayReduceAxis step identity ax ndim false a) = _
      rw [hgspec]
      rfl

/-- The final output rank of the claim's staging is the declared rank minus
the number of stages. -/
theorem specStages_rank {α : Type} (step : Nat → α → α → α) (identity : α) :
    ∀ (l : List Nat) (ndim : Nat) (a : NDArray α), l ≠ [] →
      (specStages step identity l ndim a).shape.length = ndim - l.length := by
  intro l
  induction l with
  | nil => exact fun _ _ h => absurd rfl h
  | cons ax rest ih =>
    intro ndim a _
    by_cases hr : rest = []
    · subst hr
      show (specStages step identity [] (ndim - 1)
        (ndArrayReduceAxis step identity ax ndim false a)).shape.length = _
      simp only [specStages]
      rw [ndArrayReduceAxis_rank]
      rfl
    · show (specStages step identity rest (ndim - 1)
        (ndArrayReduceAxis step identity ax ndim false a)).shape.length = _
      rw [ih (ndim - 1) _ hr]
      simp only [List.length_cons]
      omega

/-- C1 counterexample: the axes `[1, -1]` of a rank-2 reduction are two
distinct axis designators that normalize to the same axis; the claim's
deduplicating reducer builds a one-stage kernel of output rank 1, but
`create_multiaxis_reducer` rejects the request with `ValueError` instead. -/
theorem createMultiaxisReducer_dedup_counterexample :
    createMultiaxisReducer .mul mulStep (1 : ℚ) [1, -1] 2 = .error "ValueError: repeated axis"
    ∧ ∃ f, claimDedupMultiaxisReducer .mul mulStep (1 : ℚ) [1, -1] 2 = .ok f
        ∧ (f exQ2).shape.length = 1 := by
  exact ⟨rfl, ⟨_, rfl, rfl⟩⟩

/-- C1 (amended): for every registered scalar operator, identity, rank, and
two or more axes whose normalized forms are distinct (duplicates are instead
rejected with `ValueError`, see the counterexample), the multi-axis reducer is
built as one single-axis `keepdims = false` stage per axis in descending axis
order, each consuming the previous stage's output, and the final output rank
is `rank - len(axes)`. -/
theorem createMultiaxisReducer_stages {α : Type} (tag : ScalarOpTag)
    (step : Nat → α → α → α) (identity : α) (axes : List Int) (ndim : Nat)
    (axs : List Nat) (hreg : tag.registered = true) (hlen : 2 ≤ axes.length)
    (hnorm : normalize_axis_tuple axes ndim = .ok axs) :
    ∃ f, createMultiaxisReducer tag step identity axes ndim = .ok f
      ∧ (sortDescNat axs).Sorted (· ≥ ·)
      ∧ (sortDescNat axs).Perm axs
      ∧ (∀ a, f a = specStages step identity (sortDescNat axs) ndim a)
      ∧ (∀ a, (f a).shape.length = ndim - axes.length) := by
  obtain ⟨hlt, hnd, hleneq⟩ := normalize_axis_tuple_ok hnorm
  have hpw := sortDescNat_pairwise_gt hnd
  have hlt' : ∀ x ∈ sortDescNat axs, x < ndim :=
    fun x hx => hlt x ((sortDescNat_perm axs).mem_iff.mp hx)
  obtain ⟨g, hg, hgspec⟩ := runStages_ok tag step identity hreg (sortDescNat axs) ndim hpw hlt'
  have hne : sortDescNat axs ≠ [] := by
    intro hc
    have := (sortDescNat_perm axs).length_eq
    rw [hc] at this
    simp at this
    omega
  refine ⟨g, ?_, sortDescNat_sorted axs, sortDescNat_perm axs, hgspec, ?_⟩
  · unfold createMultiaxisReducer
    rw [if_neg (by omega)]
    show (do
      let axs ← normalize_axis_tuple axes ndim
      runStages tag step identity (sortDescNat axs) ndim) = _
    rw [hnorm, except_bind_ok, hg]
  · intro a
    rw [hgspec a, specStages_rank step identity _ ndim a hne,
      (sortDescNat_perm axs).length_eq, hleneq]

/-- Witness for C1: reducing axes `{0, 2}` of a rank-3 array yields rank 1. -/
theorem createMultiaxisReducer_stages_witness :
    (createMultiaxisReducer .add addStep (0 : ℚ) [0, 2] 3).map
      (fun f => (f exQ3).shape.length) = .ok 1 := by
  obtain ⟨f, hf, _, _, _, hrank⟩ :=
    createMultiaxisReducer_stages .add addStep (0 : ℚ) [0, 2] 3 [0, 2] rfl
      (by norm_num) rfl
  rw [hf]
  simp only [Except.map]
  rw [hrank exQ3]
  rfl

/-- Normalizing a list of in-range non-negative axes is the identity. -/
theorem mapM_normalize_ofNat {ndim : Nat} :
    ∀ (l : List Nat), (∀ x ∈ l, x < ndim) →
      (l.map Int.ofNat).mapM (fun ax => normalize_axis_index ax ndim) = .ok l := by
  intro l
  induction l with
  | nil => intro _; rfl
  | cons x t ih =>
    intro hb
    simp only [List.map_cons]
    rw [List.mapM_cons, normalize_axis_index_ofNat (hb x (by simp)), except_bind_ok,
      ih (fun y hy => hb y (by simp [hy])), except_bind_ok]
    rfl

/-- Normalizing the full axis range is the identity. -/
theorem normalize_axis_tuple_range (ndim : Nat) :
    normalize_axis_tuple ((List.range ndim).map Int.ofNat) ndim = .ok (List.range ndim) := by
  unfold normalize_axis_tuple
  rw [mapM_normalize_ofNat (List.range ndim) (fun x hx => List.mem_range.mp hx),
    except_bind_ok, if_pos (List.nodup_range ndim)]
  rfl

/-- C10: with `axis = None` the reduction kernel defaults to reducing every
axis of `[0, rank)`, so for every input of the declared rank the output has
rank 0. -/
theorem careduceKernel_axisNone_rank {α : Type} (tag : ScalarOpTag)
    (step : Nat → α → α → α) (identity : α) (ndim : Nat)
    (hreg : tag.registered = true) :
    ∃ f, careduceKernel tag step identity none ndim = .ok f
      ∧ ∀ a : NDArray α, a.shape.length = ndim → (f a).shape.length = 0 := by
  match ndim with
  | 0 =>
    refine ⟨id, rfl, ?_⟩
    intro a ha
    simpa using ha
  | 1 =>
    refine ⟨ndArrayReduceAxis step identity 0 1 false, ?_, ?_⟩
    · show createMultiaxisReducer tag step identity [Int.ofNat 0] 1 = _
      unfold createMultiaxisReducer
      rw [if_pos (show [Int.ofNat 0].length = 1 from rfl)]
      exact createAxisReducer_ok tag step identity hreg (by norm_num)
    · intro a _
      rw [ndArrayReduceAxis_rank]
  | (n + 2) =>
    have hnorm := normalize_axis_tuple_range (n + 2)
    have hpw := sortDescNat_pairwise_gt (List.nodup_range (n + 2))
    have hlt' : ∀ x ∈ sortDescNat (List.range (n + 2)), x < n + 2 :=
      fun x hx => List.mem_range.mp ((sortDescNat_perm _).mem_iff.mp hx)
    obtain ⟨g, hg, hgspec⟩ := runStages_ok tag step identity hreg _ (n + 2) hpw hlt'
    have hne : sortDescNat (List.range (n + 2)) ≠ [] := by
      intro hc
      have hpl := (sortDescNat_perm (List.range (n + 2))).length_eq
      rw [hc] at hpl
      simp at hpl
    refine ⟨g, ?_, ?_⟩
    · show createMultiaxisReducer tag step identity
        ((List.range (n + 2)).map Int.ofNat) (n + 2) = _
      unfold createMultiaxisReducer
      rw [if_neg (by simp only [List.length_map, List.length_range]; omega)]
      show (do
        let axs ← normalize_axis_tuple ((List.range (n + 2)).map Int.ofNat) (n + 2)
        runStages tag step identity (sortDescNat axs) (n + 2)) = _
      rw [hnorm, except_bind_ok, hg]
    · intro a _
      rw [hgspec a, specStages_rank step identity _ _ a hne,
        (sortDescNat_perm _).length_eq]
      simp

/-- Witness for C10: the all-axis reduction of a rank-3 array has rank 0. -/
theorem careduceKernel_axisNone_rank_witness :
    (careduceKernel .add addStep (0 : ℚ) none 3).map
      (fun f => (f exQ3).shape.length) = .ok 0 := by
  obtain ⟨f, hf, hr⟩ := careduceKernel_axisNone_rank .add addStep (0 : ℚ) 3 rfl
  rw [hf]
  simp only [Except.map]
  rw [hr exQ3 rfl]

/-- C6: on `[[3, 1, 2], [0, 5, 4]]` the max-and-argmax kernel for axis set
`{1}` returns `max = [3, 5]`, `argmax = [0, 1]`; reducing both axes returns
`max = 5` and `argmax = 4`, the row-major flat index within the reduced
(flattened) axes. -/
theorem maxandargmax_example :
    (maxandargmaxBuild [1] 2).toOption.map
      (fun k => (((k exArr).1.shape, (k exArr).1.toList),
        ((k exArr).2.shape, (k exArr).2.toList)))
      = some (([2], [(3 : WithBot ℤ), 5]), ([2], [(0 : ℤ), 1]))
    ∧ (maxandargmaxBuild [0, 1] 2).toOption.map
      (fun k => (((k exArr).1.shape, (k exArr).1.toList),
        ((k exArr).2.shape, (k exArr).2.toList)))
      = some (([], [(5 : WithBot ℤ)]), ([], [(4 : ℤ)])) := by
  exact ⟨by decide, by decide⟩

theorem validIdx_length : ∀ {s idx : List Nat}, validIdx s idx → idx.length = s.length
  | [], [], _ => rfl
  | [], _ :: _, h => h.elim
  | _ :: _, [], h => h.elim
  | _ :: s, _ :: t, h => by
    simp only [List.length_cons]
    exact congrArg (· + 1) (@validIdx_length s t h.2)

theorem flattenIdx_lt : ∀ {s idx : List Nat}, validIdx s idx → flattenIdx s idx < s.prod
  | [], [], _ => by simp [flattenIdx]
  | [], _ :: _, h => h.elim
  | _ :: _, [], h => h.elim
  | d :: s, i :: t, h => by
    have ih := @flattenIdx_lt s t h.2
    show i * s.prod + flattenIdx s t < (d :: s).prod
    rw [List.prod_cons]
    calc i * s.prod + flattenIdx s t < i * s.prod + s.prod := by omega
      _ = (i + 1) * s.prod := by ring
      _ ≤ d * s.prod := Nat.mul_le_mul_right _ h.1

theorem unflattenIdx_flattenIdx : ∀ {s idx : List Nat}, validIdx s idx →
    unflattenIdx s (flattenIdx s idx) = idx
  | [], [], _ => rfl
  | [], _ :: _, h => h.elim
  | _ :: _, [], h => h.elim
  | d :: s, i :: t, h => by
    have hlt := @flattenIdx_lt s t h.2
    have hpos : 0 < s.prod := by omega
    show ((i * s.prod + flattenIdx s t) / s.prod)
        :: unflattenIdx s ((i * s.prod + flattenIdx s t) % s.prod) = i :: t
    have hdiv : (i * s.prod + flattenIdx s t) / s.prod = i := by
      rw [Nat.add_comm, Nat.add_mul_div_right _ _ hpos, Nat.div_eq_of_lt hlt]
      omega
    have hmod : (i * s.prod + flattenIdx s t) % s.prod = flattenIdx s t := by
      rw [Nat.add_comm, Nat.add_mul_mod_self_right]
      exact Nat.mod_eq_of_lt hlt
    rw [hdiv, hmod, @unflattenIdx_flattenIdx s t h.2]

theorem unflattenIdx_ones_zero : ∀ {v : List Nat}, (∀ x ∈ v, x = 1) →
    unflattenIdx v 0 = v.map (fun _ => 0)
  | [], _ => rfl
  | d :: v, h => by
    show (0 / v.prod) :: unflattenIdx v (0 % v.prod) = 0 :: _
    have hv : v.prod = 1 := List.prod_eq_one (fun x hx => h x (by simp [hx]))
    rw [hv]
    simp only [Nat.zero_div, Nat.zero_mod]
    rw [unflattenIdx_ones_zero (fun x hx => h x (by simp [hx]))]

theorem unflattenIdx_append_ones : ∀ {u v : List Nat} {k : Nat},
    (∀ x ∈ v, x = 1) → k < u.prod →
    unflattenIdx (u ++ v) k = unflattenIdx u k ++ v.map (fun _ => 0)
  | [], v, k, hv, hk => by
    have hk0 : k = 0 := by
      simp only [List.prod_nil] at hk
      omega
    subst hk0
    show unflattenIdx v 0 = [] ++ _
    rw [unflattenIdx_ones_zero hv]
    rfl
  | d :: u, v, k, hv, hk => by
    have hvp : v.prod = 1 := List.prod_eq_one hv
    have hup : (u ++ v).prod = u.prod := by rw [List.prod_append, hvp, Nat.mul_one]
    have hupos : 0 < u.prod := by
      rcases Nat.eq_zero_or_pos u.prod with h0 | h
      · exfalso
        rw [List.prod_cons, h0, Nat.mul_zero] at hk
        omega
      · exact h
    show (k / (u ++ v).prod) :: unflattenIdx (u ++ v) (k % (u ++ v).prod)
        = ((k / u.prod) :: unflattenIdx u (k % u.prod)) ++ _
    rw [hup, List.cons_append]
    congr 1
    exact unflattenIdx_append_ones hv (Nat.mod_lt _ hupos)

theorem mem_findNones : ∀ (src : List (Option Nat)) (k i : Nat),
    i ∈ findNones src k ↔ (k ≤ i ∧ src[i - k]? = some none)
  | [], k, i => by simp [findNones]
  | none :: t, k, i => by
    simp only [findNones, List.mem_cons]
    constructor
    · rintro (rfl | h)
      · simp
      · obtain ⟨hk, hg⟩ := (mem_findNones t (k + 1) i).mp h
        refine ⟨by omega, ?_⟩
        have hik : i - k = (i - (k + 1)) + 1 := by omega
        rw [hik]
        simpa using hg
    · rintro ⟨hk, hg⟩
      by_cases hik : i = k
      · exact Or.inl hik
      · right
        apply (mem_findNones t (k + 1) i).mpr
        refine ⟨by omega, ?_⟩
        have hik2 : i - k = (i - (k + 1)) + 1 := by omega
        rw [hik2] at hg
        simpa using hg
  | some q :: t, k, i => by
    simp only [findNones]
    rw [mem_findNones t (k + 1) i]
    constructor
    · rintro ⟨hk, hg⟩
      refine ⟨by omega, ?_⟩
      have hik : i - k = (i - (k + 1)) + 1 := by omega
      rw [hik]
      simpa using hg
    · rintro ⟨hk, hg⟩
      have hik : i ≠ k := by
        intro h
        subst h
        simp at hg
      refine ⟨by omega, ?_⟩
      have hik2 : i - k = (i - (k + 1)) + 1 := by omega
      rw [hik2] at hg
      simpa using hg

theorem mem_findNones_zero (src : List (Option Nat)) (i : Nat) :
    i ∈ findNones src 0 ↔ src[i]? = some none := by
  rw [mem_findNones]
  simp

theorem length_shuffle_add_nones : ∀ (src : List (Option Nat)) (k : Nat),
    (src.filterMap id).length + (findNones src k).length = src.length
  | [], _ => rfl
  | none :: t, k => by
    show (List.filterMap id t).length + (k :: findNones t (k + 1)).length = t.length + 1
    simp only [List.length_cons]
    have := length_shuffle_add_nones t (k + 1)
    omega
  | some q :: t, k => by
    show (q :: List.filterMap id t).length + (findNones t (k + 1)).length = t.length + 1
    simp only [List.length_cons]
    have := length_shuffle_add_nones t (k + 1)
    omega

theorem findShape_srcShape (sh : List Nat) :
    ∀ (s pre : List (Option Nat)),
      findShape (findNones (pre ++ s) 0) ((s.filterMap id).map (fun p => sh.getD p 0))
        pre.length s.length = srcShape s sh := by
  intro s
  induction s with
  | nil => intro pre; rfl
  | cons o s' ih =>
    intro pre
    cases o with
    | none =>
      have hmem : pre.length ∈ findNones (pre ++ none :: s') 0 := by
        rw [mem_findNones_zero, List.getElem?_append_right (le_refl _), Nat.sub_self]
        simp
      show findShape (findNones (pre ++ none :: s') 0)
        ((s'.filterMap id).map (fun p => sh.getD p 0)) pre.length (s'.length + 1) = _
      simp only [findShape, if_pos hmem]
      have hre : pre ++ none :: s' = (pre ++ [none]) ++ s' := by
        rw [List.append_cons]
      have hlen : pre.length + 1 = (pre ++ [none]).length := by simp
      rw [hre, hlen, ih (pre ++ [none])]
      rfl
    | some p =>
      have hmem : ¬ pre.length ∈ findNones (pre ++ some p :: s') 0 := by
        rw [mem_findNones_zero, List.getElem?_append_right (le_refl _), Nat.sub_self]
        simp
      show findShape (findNones (pre ++ some p :: s') 0)
        ((sh.getD p 0) :: (s'.filterMap id).map (fun q => sh.getD q 0))
        pre.length (s'.length + 1) = _
      simp only [findShape, if_neg hmem, List.headD_cons, List.tail_cons]
      have hre : pre ++ some p :: s' = (pre ++ [some p]) ++ s' := by
        rw [List.append_cons]
      have hlen : pre.length + 1 = (pre ++ [some p]).length := by simp
      rw [hre, hlen, ih (pre ++ [some p])]
      rfl

theorem idxOfN_append_left {p : Nat} : ∀ {l : List Nat} (r : List Nat), p ∈ l →
    idxOfN p (l ++ r) = idxOfN p l
  | [], _, h => absurd h (List.not_mem_nil p)
  | q :: l, r, h => by
    show (if q = p then 0 else idxOfN p (l ++ r) + 1)
        = (if q = p then 0 else idxOfN p l + 1)
    by_cases hq : q = p
    · simp [hq]
    · have hm : p ∈ l := by
        rcases List.mem_cons.mp h with h1 | h1
        · exact absurd h1.symm hq
        · exact h1
      simp [hq, idxOfN_append_left r hm]

theorem idxOfN_append_right {p : Nat} : ∀ {l : List Nat} (r : List Nat), p ∉ l →
    idxOfN p (l ++ r) = l.length + idxOfN p r
  | [], r, _ => by simp [idxOfN]
  | q :: l, r, h => by
    have hq : ¬ q = p := fun hc => h (by simp [hc])
    have hm : p ∉ l := fun hc => h (by simp [hc])
    show (if q = p then 0 else idxOfN p (l ++ r) + 1) = (q :: l).length + idxOfN p r
    rw [if_neg hq, idxOfN_append_right r hm]
    simp only [List.length_cons]
    omega

theorem idxOfN_lt_length {p : Nat} : ∀ {l : List Nat}, p ∈ l → idxOfN p l < l.length
  | [], h => absurd h (List.not_mem_nil p)
  | q :: l, h => by
    show (if q = p then 0 else idxOfN p l + 1) < l.length + 1
    by_cases hq : q = p
    · simp [hq]
    · have hm : p ∈ l := by
        rcases List.mem_cons.mp h with h1 | h1
        · exact absurd h1.symm hq
        · exact h1
      rw [if_neg hq]
      have := idxOfN_lt_length hm
      omega

theorem idxOfN_range {n p : Nat} (h : p < n) : idxOfN p (List.range n) = p := by
  induction n with
  | zero => omega
  | succ m ih =>
    rw [List.range_succ]
    by_cases hp : p < m
    · rw [idxOfN_append_left _ (List.mem_range.mpr hp), ih hp]
    · have hpm : p = m := by omega
      subst hpm
      rw [idxOfN_append_right _ (by simp [List.mem_range])]
      simp [idxOfN, List.length_range]

theorem map_getD_range (l : List Nat) :
    (List.range l.length).map (fun p => l.getD p 0) = l := by
  apply List.ext_getElem
  · simp
  · intro i h1 h2
    simp only [List.getElem_map, List.getElem_range, List.getD_eq_getElem?_getD,
      List.getElem?_eq_getElem h2, Option.getD_some]

theorem transposeOpt_shape {α : Type} (a : NDArray α) (perm : List Nat)
    (hlen : perm.length = a.shape.length) :
    (transposeOpt perm a).shape = perm.map (fun p => a.shape.getD p 0) := by
  unfold transposeOpt
  split
  · next hid =>
    show a.shape = _
    conv_rhs => rw [hid]
    rw [hlen]
    exact (map_getD_range a.shape).symm
  · rfl

theorem transposeOpt_get {α : Type} (a : NDArray α) (perm : List Nat) (idx : List Nat)
    (hlen : perm.length = a.shape.length) (hidx : idx.length = a.shape.length) :
    (transposeOpt perm a).get idx
      = a.get ((List.range a.shape.length).map (fun p => idx.getD (idxOfN p perm) 0)) := by
  unfold transposeOpt
  split
  · next hid =>
    show a.get idx = _
    congr 1
    symm
    rw [← hidx]
    rw [show ((List.range idx.length).map (fun p => idx.getD (idxOfN p perm) 0))
        = (List.range idx.length).map (fun p => idx.getD p 0) from
      List.map_congr_left (fun p hp => by
        rw [hid, hlen, ← hidx, idxOfN_range (List.mem_range.mp hp)])]
    exact map_getD_range idx
  · rfl

theorem extractIdx_length : ∀ {src : List (Option Nat)} {idx : List Nat},
    idx.length = src.length → (extractIdx src idx).length = (src.filterMap id).length
  | [], [], _ => rfl
  | [], _ :: _, h => by simp at h
  | _ :: _, [], h => by simp at h
  | some q :: s, x :: t, h => by
    show (x :: extractIdx s t).length = (q :: s.filterMap id).length
    simp only [List.length_cons]
    rw [extractIdx_length (by simpa using h)]
  | none :: s, x :: t, h => by
    show (extractIdx s t).length = (s.filterMap id).length
    exact extractIdx_length (by simpa using h)

theorem validIdx_extractIdx {sh : List Nat} : ∀ {src : List (Option Nat)} {idx : List Nat},
    validIdx (srcShape src sh) idx →
    validIdx ((src.filterMap id).map (fun p => sh.getD p 0)) (extractIdx src idx)
  | [], [], _ => trivial
  | [], _ :: _, h => h.elim
  | _ :: _, [], h => h.elim
  | some q :: s, x :: t, h => ⟨h.1, @validIdx_extractIdx sh s t h.2⟩
  | none :: s, x :: t, h => @validIdx_extractIdx sh s t h.2

theorem prod_srcShape {sh : List Nat} : ∀ (src : List (Option Nat)),
    (srcShape src sh).prod = ((src.filterMap id).map (fun p => sh.getD p 0)).prod
  | [] => rfl
  | some q :: s => by
    show (sh.getD q 0 :: srcShape s sh).prod
        = (sh.getD q 0 :: (s.filterMap id).map (fun p => sh.getD p 0)).prod
    rw [List.prod_cons, List.prod_cons, prod_srcShape s]
  | none :: s => by
    show ((1 : Nat) :: srcShape s sh).prod
        = ((s.filterMap id).map (fun p => sh.getD p 0)).prod
    rw [List.prod_cons, prod_srcShape s]
    omega

theorem flattenIdx_srcShape {sh : List Nat} : ∀ {src : List (Option Nat)} {idx : List Nat},
    validIdx (srcShape src sh) idx →
    flattenIdx (srcShape src sh) idx
      = flattenIdx ((src.filterMap id).map (fun p => sh.getD p 0)) (extractIdx src idx)
  | [], [], _ => rfl
  | [], _ :: _, h => h.elim
  | _ :: _, [], h => h.elim
  | some q :: s, x :: t, h => by
    show x * (srcShape s sh).prod + flattenIdx (srcShape s sh) t
        = x * ((s.filterMap id).map (fun p => sh.getD p 0)).prod
          + flattenIdx ((s.filterMap id).map (fun p => sh.getD p 0)) (extractIdx s t)
    rw [prod_srcShape s, @flattenIdx_srcShape sh s t h.2]
  | none :: s, x :: t, h => by
    have hx : x = 0 := by
      have h1 : x < 1 := h.1
      omega
    subst hx
    show 0 * (srcShape s sh).prod + flattenIdx (srcShape s sh) t
        = flattenIdx ((s.filterMap id).map (fun p => sh.getD p 0)) (extractIdx s t)
    rw [@flattenIdx_srcShape sh s t h.2]
    omega

theorem posOf_getElem : ∀ {src : List (Option Nat)} {p i : Nat},
    posOf src p = some i → src[i]? = some (some p)
  | [], p, i, h => by simp [posOf] at h
  | some q :: s, p, i, h => by
    by_cases hq : q = p
    · subst hq
      have h0 : i = 0 := by
        simp [posOf] at h
        omega
      subst h0
      simp
    · simp only [posOf, if_neg hq] at h
      cases hps : posOf s p with
      | none =>
        rw [hps] at h
        exact Option.noConfusion h
      | some j =>
        rw [hps] at h
        have hj : i = j + 1 := by
          simp [Option.map_some'] at h
          omega
        subst hj
        simpa using posOf_getElem hps
  | none :: s, p, i, h => by
    simp only [posOf] at h
    cases hps : posOf s p with
    | none =>
      rw [hps] at h
      exact Option.noConfusion h
    | some j =>
      rw [hps] at h
      have hj : i = j + 1 := by
        simp [Option.map_some'] at h
        omega
      subst hj
      simpa using posOf_getElem hps

theorem posOf_none : ∀ {src : List (Option Nat)} {p : Nat},
    posOf src p = none → ∀ i : Nat, src[i]? ≠ some (some p)
  | [], p, _, i => by simp
  | some q :: s, p, h, i => by
    by_cases hq : q = p
    · subst hq
      simp [posOf] at h
    · simp only [posOf, if_neg hq] at h
      have hps : posOf s p = none := by
        cases hps : posOf s p with
        | none => rfl
        | some j =>
          rw [hps] at h
          exact Option.noConfusion h
      cases i with
      | zero =>
        simp only [List.getElem?_cons_zero, ne_eq, Option.some.injEq]
        intro hc
        exact hq (by simpa using hc)
      | succ i => simpa using posOf_none hps i
  | none :: s, p, h, i => by
    simp only [posOf] at h
    have hps : posOf s p = none := by
      cases hps : posOf s p with
      | none => rfl
      | some j =>
        rw [hps] at h
        exact Option.noConfusion h
    cases i with
    | zero => simp
    | succ i => simpa using posOf_none hps i

theorem posOf_of_getElem_nodup : ∀ {src : List (Option Nat)} {p j : Nat},
    (src.filterMap id).Nodup → src[j]? = some (some p) → posOf src p = some j
  | [], p, j, _, h => by simp at h
  | some q :: s, p, 0, hnd, h => by
    have hq : q = p := by simpa using h
    subst hq
    simp [posOf]
  | some q :: s, p, j + 1, hnd, h => by
    have hs : s[j]? = some (some p) := by simpa using h
    have hcons : (q :: s.filterMap id).Nodup := by
      simpa [List.filterMap_cons] using hnd
    have hnd' : (s.filterMap id).Nodup := hcons.of_cons
    have hq : q ≠ p := by
      intro hc
      subst hc
      have hmem : (some q) ∈ s := List.getElem?_mem hs
      have hfm : q ∈ s.filterMap id := List.mem_filterMap.mpr ⟨some q, hmem, rfl⟩
      exact (List.nodup_cons.mp hcons).1 hfm
    rw [show posOf (some q :: s) p
        = (if q = p then some 0 else (posOf s p).map (· + 1)) from rfl]
    rw [if_neg hq, posOf_of_getElem_nodup hnd' hs]
    rfl
  | none :: s, p, 0, _, h => by simp at h
  | none :: s, p, j + 1, hnd, h => by
    have hs : s[j]? = some (some p) := by simpa using h
    have hnd' : (s.filterMap id).Nodup := by simpa [List.filterMap_cons] using hnd
    rw [show posOf (none :: s) p = (posOf s p).map (· + 1) from rfl]
    rw [posOf_of_getElem_nodup hnd' hs]
    rfl

theorem posOf_lt_length {src : List (Option Nat)} {p i : Nat}
    (h : posOf src p = some i) : i < src.length := by
  have hg := posOf_getElem h
  by_contra hc
  rw [List.getElem?_eq_none (by omega)] at hg
  cases hg

theorem extractIdx_getD : ∀ {src : List (Option Nat)} {idx : List Nat} {p i : Nat},
    idx.length = src.length → posOf src p = some i →
    (extractIdx src idx).getD (idxOfN p (src.filterMap id)) 0 = idx.getD i 0
  | [], [], p, i, _, h => by simp [posOf] at h
  | [], _ :: _, p, i, hl, _ => by simp at hl
  | _ :: _, [], p, i, hl, _ => by simp at hl
  | some q :: s, x :: t, p, i, hl, h => by
    by_cases hq : q = p
    · subst hq
      have h0 : i = 0 := by
        simp [posOf] at h
        omega
      subst h0
      show (x :: extractIdx s t).getD (idxOfN q (q :: s.filterMap id)) 0 = x
      simp [idxOfN]
    · simp only [posOf, if_neg hq] at h
      cases hps : posOf s p with
      | none => rw [hps] at h; exact Option.noConfusion h
      | some j =>
        rw [hps] at h
        have hj : i = j + 1 := by
          simp [Option.map_some'] at h
          omega
        subst hj
        show (x :: extractIdx s t).getD (idxOfN p (q :: s.filterMap id)) 0
            = (x :: t).getD (j + 1) 0
        rw [show idxOfN p (q :: s.filterMap id) = idxOfN p (s.filterMap id) + 1 from by
          simp [idxOfN, hq]]
        rw [List.getD_cons_succ, List.getD_cons_succ]
        exact extractIdx_getD (by simpa using hl) hps
  | none :: s, x :: t, p, i, hl, h => by
    simp only [posOf] at h
    cases hps : posOf s p with
    | none => rw [hps] at h; exact Option.noConfusion h
    | some j =>
      rw [hps] at h
      have hj : i = j + 1 := by
        simp [Option.map_some'] at h
        omega
      subst hj
      show (extractIdx s t).getD (idxOfN p (s.filterMap id)) 0 = (x :: t).getD (j + 1) 0
      rw [List.getD_cons_succ]
      exact extractIdx_getD (by simpa using hl) hps

theorem getD_map_zero {β : Type} (v : List β) (k : Nat) :
    (v.map (fun _ => (0 : Nat))).getD k 0 = 0 := by
  induction v generalizing k with
  | nil => rfl
  | cons x t ih =>
    cases k with
    | zero => rfl
    | succ k => simpa using ih k

theorem srcShape_length (src : List (Option Nat)) (sh : List Nat) :
    (srcShape src sh).length = src.length := by
  simp [srcShape]

theorem mem_srcDrop {n p : Nat} {src : List (Option Nat)} :
    p ∈ srcDrop n src ↔ p < n ∧ p ∉ srcShuffle src := by
  unfold srcDrop
  simp [List.mem_filter, List.mem_range]

theorem shuffle_drop_perm {n : Nat} {src : List (Option Nat)}
    (hlt : ∀ p ∈ srcShuffle src, p < n) (hnd : (srcShuffle src).Nodup) :
    (srcShuffle src ++ srcDrop n src).Perm (List.range n) := by
  have hdnd : (srcDrop n src).Nodup := (List.nodup_range n).filter _
  have hnda : (srcShuffle src ++ srcDrop n src).Nodup := by
    rw [List.nodup_append]
    refine ⟨hnd, hdnd, ?_⟩
    intro x hx hx'
    exact (mem_srcDrop.mp hx').2 hx
  apply (List.perm_ext_iff_of_nodup hnda (List.nodup_range n)).mpr
  intro x
  simp only [List.mem_append, List.mem_range, mem_srcDrop]
  constructor
  · rintro (h | h)
    · exact hlt x h
    · exact h.1
  · intro h
    by_cases hs : x ∈ srcShuffle src
    · exact Or.inl hs
    · exact Or.inr ⟨h, hs⟩

theorem dimshuffleSrc_shape {α : Type} (a : NDArray α) (n : Nat) (src : List (Option Nat))
    (hn : a.shape.length = n)
    (hlt : ∀ p ∈ srcShuffle src, p < n)
    (hnd : (srcShuffle src).Nodup) :
    (dimshuffleSrc n src a).shape = srcShape src a.shape := by
  have hperm := shuffle_drop_perm (n := n) hlt hnd
  have hplen : (srcShuffle src ++ srcDrop n src).length = a.shape.length := by
    rw [hperm.length_eq, List.length_range, hn]
  have htshape := transposeOpt_shape a (srcShuffle src ++ srcDrop n src) hplen
  have hcount : (srcShuffle src).length + (srcAugment src).length = src.length :=
    length_shuffle_add_nones src 0
  unfold dimshuffleSrc dimshuffle
  by_cases hm : 0 < (srcShuffle src).length + (srcAugment src).length
  · simp only [hm, if_true, if_pos hm, NDArray.reshape]
    rw [htshape, List.map_append,
      List.take_left' (by rw [List.length_map] : ((srcShuffle src).map (fun p => a.shape.getD p 0)).length = (srcShuffle src).length),
      hcount]
    exact findShape_srcShape a.shape src []
  · rw [if_neg hm]
    have hz : src.length = 0 := by omega
    have hsrc : src = [] := List.length_eq_zero.mp hz
    subst hsrc
    rfl

theorem dimshuffleSrc_get {α : Type} (a : NDArray α) (n : Nat) (src : List (Option Nat))
    (hn : a.shape.length = n)
    (hlt : ∀ p ∈ srcShuffle src, p < n)
    (hnd : (srcShuffle src).Nodup)
    (hdrop : ∀ p, p < n → p ∉ srcShuffle src → a.shape.getD p 0 = 1)
    (idx : List Nat) (hidx : validIdx (srcShape src a.shape) idx) :
    (dimshuffleSrc n src a).get idx = a.get (srcPull n src idx) := by
  have hperm := shuffle_drop_perm (n := n) hlt hnd
  have hplen : (srcShuffle src ++ srcDrop n src).length = a.shape.length := by
    rw [hperm.length_eq, List.length_range, hn]
  have htshape := transposeOpt_shape a (srcShuffle src ++ srcDrop n src) hplen
  have hcount : (srcShuffle src).length + (srcAugment src).length = src.length :=
    length_shuffle_add_nones src 0
  have hidxlen : idx.length = src.length := by
    have hv := validIdx_length hidx
    rwa [srcShape_length] at hv
  unfold dimshuffleSrc dimshuffle
  by_cases hm : 0 < (srcShuffle src).length + (srcAugment src).length
  case neg =>
    rw [if_neg hm]
    have hsrc : src = [] := List.length_eq_zero.mp (by omega)
    subst hsrc
    show a.get (List.replicate a.shape.length 0) = _
    have hpull : srcPull n ([] : List (Option Nat)) idx = List.replicate n 0 := by
      unfold srcPull
      rw [show ((List.range n).map (fun p =>
          match posOf [] p with | some i => idx.getD i 0 | none => 0))
          = (List.range n).map (fun _ => 0) from rfl]
      rw [List.map_const', List.length_range]
    rw [hpull, hn]
  case pos =>
    rw [if_pos hm]
    have hFS : findShape (srcAugment src)
        ((transposeOpt (srcShuffle src ++ srcDrop n src) a).shape.take (srcShuffle src).length)
        0 ((srcShuffle src).length + (srcAugment src).length) = srcShape src a.shape := by
      rw [htshape, List.map_append,
        List.take_left' (by rw [List.length_map] :
          ((srcShuffle src).map (fun p => a.shape.getD p 0)).length = (srcShuffle src).length),
        hcount]
      exact findShape_srcShape a.shape src []
    show (NDArray.reshape _ _).get idx = _
    simp only [NDArray.reshape]
    have hflat : flattenIdx (srcShape src a.shape) idx
        = flattenIdx ((srcShuffle src).map (fun p => a.shape.getD p 0)) (extractIdx src idx) :=
      flattenIdx_srcShape hidx
    rw [hFS, hflat, htshape, List.map_append]
    have hvext : validIdx ((srcShuffle src).map (fun p => a.shape.getD p 0))
        (extractIdx src idx) := validIdx_extractIdx hidx
    have hklt := flattenIdx_lt hvext
    have hones : ∀ x ∈ (srcDrop n src).map (fun p => a.shape.getD p 0), x = 1 := by
      intro x hx
      obtain ⟨p, hp, rfl⟩ := List.mem_map.mp hx
      obtain ⟨hp1, hp2⟩ := mem_srcDrop.mp hp
      exact hdrop p hp1 hp2
    rw [unflattenIdx_append_ones hones hklt, unflattenIdx_flattenIdx hvext]
    have hext_len : (extractIdx src idx).length = (srcShuffle src).length := by
      rw [extractIdx_length hidxlen]
      rfl
    have hlen2 : (extractIdx src idx
        ++ ((srcDrop n src).map (fun p => a.shape.getD p 0)).map (fun _ => 0)).length
        = a.shape.length := by
      rw [List.length_append, hext_len, List.length_map, List.length_map, ← hplen,
        List.length_append]
    rw [transposeOpt_get a _ _ hplen hlen2]
    congr 1
    rw [hn]
    unfold srcPull
    apply List.map_congr_left
    intro p hp
    have hpn : p < n := List.mem_range.mp hp
    cases hpos : posOf src p with
    | some i =>
      have hg := posOf_getElem hpos
      have hmem : p ∈ srcShuffle src := by
        have hm2 : (some p) ∈ src := List.getElem?_mem hg
        exact List.mem_filterMap.mpr ⟨some p, hm2, rfl⟩
      rw [idxOfN_append_left _ hmem]
      have hki : idxOfN p (srcShuffle src) < (extractIdx src idx).length := by
        rw [hext_len]
        exact idxOfN_lt_length hmem
      rw [List.getD_append _ _ _ _ hki]
      exact extractIdx_getD hidxlen hpos
    | none =>
      have hmem : p ∉ srcShuffle src := by
        intro hc
        obtain ⟨o, ho, hid⟩ := List.mem_filterMap.mp hc
        have ho' : o = some p := hid
        subst ho'
        obtain ⟨j, hj⟩ := List.mem_iff_getElem?.mp ho
        exact posOf_none hpos j hj
      rw [idxOfN_append_right _ hmem]
      rw [List.getD_append_right _ _ _ _ (by rw [hext_len]; omega)]
      rw [hext_len, Nat.add_sub_cancel_left]
      exact getD_map_zero _ _

theorem srcShape_getD_some {src : List (Option Nat)} {sh : List Nat} {i p : Nat}
    (h : src[i]? = some (some p)) :
    (srcShape src sh).getD i 0 = sh.getD p 0 := by
  unfold srcShape
  rw [List.getD_eq_getElem?_getD, List.getElem?_map, h]
  rfl

theorem srcShape_getD_none {src : List (Option Nat)} {sh : List Nat} {i : Nat}
    (h : src[i]? = some none) :
    (srcShape src sh).getD i 0 = 1 := by
  unfold srcShape
  rw [List.getD_eq_getElem?_getD, List.getElem?_map, h]
  rfl

theorem getD_map_range {g : Nat → Nat} {m k : Nat} (h : k < m) :
    ((List.range m).map g).getD k 0 = g k := by
  rw [List.getD_eq_getElem?_getD, List.getElem?_map, List.getElem?_range h]
  rfl

theorem mem_srcShuffle_iff {src : List (Option Nat)} {p : Nat} :
    p ∈ srcShuffle src ↔ ∃ j : Nat, src[j]? = some (some p) := by
  unfold srcShuffle
  constructor
  · intro hc
    obtain ⟨o, ho, hid⟩ := List.mem_filterMap.mp hc
    have ho' : o = some p := hid
    subst ho'
    exact List.mem_iff_getElem?.mp ho
  · rintro ⟨j, hj⟩
    exact List.mem_filterMap.mpr ⟨some p, List.getElem?_mem hj, rfl⟩

theorem validIdx_iff : ∀ {s idx : List Nat}, validIdx s idx ↔
    (idx.length = s.length ∧ ∀ k, k < s.length → idx.getD k 0 < s.getD k 0)
  | [], [] => by simp [validIdx]
  | [], _ :: _ => by simp [validIdx]
  | _ :: _, [] => by simp [validIdx]
  | d :: s, i :: t => by
    simp only [List.length_cons]
    rw [show validIdx (d :: s) (i :: t) = (i < d ∧ validIdx s t) from rfl]
    rw [@validIdx_iff s t]
    constructor
    · rintro ⟨h1, h2, h3⟩
      refine ⟨by omega, ?_⟩
      intro k hk
      cases k with
      | zero => simpa using h1
      | succ k => simpa using h3 k (by omega)
    · rintro ⟨h1, h2⟩
      refine ⟨by simpa using h2 0 (by omega), by omega, ?_⟩
      intro k hk
      simpa using h2 (k + 1) (by omega)

/-- C7: for every array and every dimshuffle specification `src` (a
`new_order` keeping axes `some p` and inserting size-1 axes at `none`, with
distinct kept axes and size-1 dropped axes), applying the dimshuffle kernel
and then the kernel of the inverse specification `src'` (kept axes permuted
back, insertions and removals reversed) returns an array with the original
shape and values at every valid index. -/
theorem dimshuffle_roundtrip {α : Type} (n : Nat) (src src' : List (Option Nat)) (a : NDArray α)
    (hn : a.shape.length = n) (hn' : src'.length = n)
    (hflt : ∀ p ∈ srcShuffle src, p < n)
    (hfnd : (srcShuffle src).Nodup)
    (hdrop : ∀ p, p < n → p ∉ srcShuffle src → a.shape.getD p 0 = 1)
    (hblt : ∀ i ∈ srcShuffle src', i < src.length)
    (hbnd : (srcShuffle src').Nodup)
    (hinv : ∀ p, p < src'.length → ∀ i, i < src.length →
      (src'[p]? = some (some i) ↔ src[i]? = some (some p))) :
    (dimshuffleSrc src.length src' (dimshuffleSrc n src a)).shape = a.shape
    ∧ ∀ idx, validIdx a.shape idx →
        (dimshuffleSrc src.length src' (dimshuffleSrc n src a)).get idx = a.get idx := by
  set mid := dimshuffleSrc n src a with hmiddef
  have hmidshape : mid.shape = srcShape src a.shape := dimshuffleSrc_shape a n src hn hflt hfnd
  have hmidlen : mid.shape.length = src.length := by rw [hmidshape, srcShape_length]
  have hinv1 : ∀ {p i : Nat}, src'[p]? = some (some i) → src[i]? = some (some p) := by
    intro p i h
    have hp : p < src'.length := by
      by_contra hc
      rw [List.getElem?_eq_none (by omega)] at h
      cases h
    have hi : i < src.length := hblt i (mem_srcShuffle_iff.mpr ⟨p, h⟩)
    exact (hinv p hp i hi).mp h
  have hinv2 : ∀ {p i : Nat}, src[i]? = some (some p) → src'[p]? = some (some i) := by
    intro p i h
    have hi : i < src.length := by
      by_contra hc
      rw [List.getElem?_eq_none (by omega)] at h
      cases h
    have hp : p < n := hflt p (mem_srcShuffle_iff.mpr ⟨i, h⟩)
    exact (hinv p (by omega) i hi).mpr h
  have hbdrop : ∀ i, i < src.length → i ∉ srcShuffle src' → mid.shape.getD i 0 = 1 := by
    intro i hi hni
    obtain ⟨o, ho⟩ : ∃ o, src[i]? = some o := by
      rw [List.getElem?_eq_getElem hi]
      exact ⟨_, rfl⟩
    cases o with
    | some p =>
      exact absurd (mem_srcShuffle_iff.mpr ⟨p, hinv2 ho⟩) hni
    | none =>
      rw [hmidshape]
      exact srcShape_getD_none ho
  have hshape2 : srcShape src' mid.shape = a.shape := by
    apply List.ext_getElem
    · rw [srcShape_length, hn', hn]
    · intro p h1 h2
      have hp : p < n := by rwa [hn] at h2
      obtain ⟨o, ho⟩ : ∃ o, src'[p]? = some o := by
        rw [List.getElem?_eq_getElem (by omega)]
        exact ⟨_, rfl⟩
      rw [show (srcShape src' mid.shape)[p] = (srcShape src' mid.shape).getD p 0 from
        (List.getD_eq_getElem _ _ h1).symm]
      rw [show a.shape[p] = a.shape.getD p 0 from (List.getD_eq_getElem _ _ h2).symm]
      cases o with
      | some i =>
        rw [srcShape_getD_some ho, hmidshape, srcShape_getD_some (hinv1 ho)]
      | none =>
        rw [srcShape_getD_none ho]
        have hpn : p ∉ srcShuffle src := by
          intro hc
          obtain ⟨j, hj⟩ := mem_srcShuffle_iff.mp hc
          have hcontra := hinv2 hj
          rw [ho] at hcontra
          simp at hcontra
        exact (hdrop p hp hpn).symm
  have hshape : (dimshuffleSrc src.length src' mid).shape = a.shape := by
    rw [dimshuffleSrc_shape mid src.length src' hmidlen hblt hbnd, hshape2]
  refine ⟨hshape, ?_⟩
  intro idx hvidx
  rw [dimshuffleSrc_get mid src.length src' hmidlen hblt hbnd hbdrop idx
    (by rw [hshape2]; exact hvidx)]
  have hvJ : validIdx (srcShape src a.shape) (srcPull src.length src' idx) := by
    rw [validIdx_iff]
    constructor
    · rw [srcShape_length]
      simp [srcPull]
    · intro k hk
      rw [srcShape_length] at hk
      unfold srcPull
      rw [getD_map_range hk]
      cases hpos : posOf src' k with
      | some p =>
        have hg := posOf_getElem hpos
        have hsk := hinv1 hg
        rw [srcShape_getD_some hsk]
        have hp : p < n := by
          have hpl := posOf_lt_length hpos
          omega
        exact (validIdx_iff.mp hvidx).2 p (by omega)
      | none =>
        obtain ⟨o, ho⟩ : ∃ o, src[k]? = some o := by
          rw [List.getElem?_eq_getElem hk]
          exact ⟨_, rfl⟩
        cases o with
        | some p =>
          exact absurd (hinv2 ho) (posOf_none hpos p)
        | none =>
          rw [srcShape_getD_none ho]
          show (0 : Nat) < 1
          omega
  rw [hmiddef, dimshuffleSrc_get a n src hn hflt hfnd hdrop _ hvJ]
  congr 1
  apply List.ext_getElem
  · have hil : idx.length = n := by rw [validIdx_length hvidx, hn]
    simp [srcPull, hil]
  · intro p h1 h2
    have hp : p < n := by simpa [srcPull] using h1
    have hil : idx.length = n := by rw [validIdx_length hvidx, hn]
    rw [show (srcPull n src (srcPull src.length src' idx))[p]
        = (srcPull n src (srcPull src.length src' idx)).getD p 0 from
      (List.getD_eq_getElem _ _ h1).symm]
    rw [show idx[p] = idx.getD p 0 from (List.getD_eq_getElem _ _ h2).symm]
    unfold srcPull
    rw [getD_map_range hp]
    cases hpos : posOf src p with
    | some i =>
      have hg := posOf_getElem hpos
      have hs' := hinv2 hg
      have hpos' : posOf src' i = some p := posOf_of_getElem_nodup hbnd hs'
      have hi : i < src.length := posOf_lt_length hpos
      show ((List.range src.length).map (fun k =>
        match posOf src' k with | some j => idx.getD j 0 | none => 0)).getD i 0
          = idx.getD p 0
      rw [getD_map_range hi, hpos']
    | none =>
      have hpn : p ∉ srcShuffle src := by
        intro hc
        obtain ⟨j, hj⟩ := mem_srcShuffle_iff.mp hc
        exact posOf_none hpos j hj
      have h1v : a.shape.getD p 0 = 1 := hdrop p hp hpn
      have hvp := (validIdx_iff.mp hvidx).2 p (by omega)
      rw [h1v] at hvp
      show (0 : Nat) = idx.getD p 0
      omega

/-- Witness for C7: the `(2, 1, 3)` array dimshuffled to `(3, 2)` (dropping
axis 1) and back reproduces the original shape and values. -/
theorem dimshuffle_roundtrip_witness :
    (dimshuffleSrc exSrcFwd.length exSrcBwd (dimshuffleSrc 3 exSrcFwd exArr7)).shape = [2, 1, 3]
    ∧ (dimshuffleSrc exSrcFwd.length exSrcBwd (dimshuffleSrc 3 exSrcFwd exArr7)).get [1, 0, 2]
        = exArr7.get [1, 0, 2] := by
  have h := dimshuffle_roundtrip 3 exSrcFwd exSrcBwd exArr7 rfl rfl
    (by decide) (by decide) (by decide) (by decide) (by decide) (by decide)
  exact ⟨h.1, h.2 [1, 0, 2] (by decide)⟩
